import Mathlib

/-!
Verification of the keyed-reduction core of a differential dataflow engine.

The development shallowly embeds the Rust sources:
  * operators/reduce.rs    (the reducer operator and its per-key history replay),
  * operators/threshold.rs (the totally ordered fast path),
  * collection.rs          (the collection facade: enter and leave),
and settles the frozen claims about them.  Machine integers of the diff
algebra are modelled as unbounded integers (the Abelian diff groups of the
engine are `isize`-like counters); logical times are a `Lattice` whose
partial order models `PartialOrder::less_equal`, together with an explicit
boolean total order modelling the Rust `Ord` instance used for sorting.
-/

namespace DDflow

/-! ## Rust list primitives: `Vec::dedup`, `Vec::sort`, `sort_dedup` -/

/-- Rust `Vec::dedup`: removes consecutive repeated elements, keeping the first
element of each run.  This is exactly `List.destutter` with the relation
of disequality. -/
def rustDedup {α : Type} [DecidableEq α] (l : List α) : List α :=
  l.destutter (· ≠ ·)

/-- Rust `Vec::sort`: a stable sort by the `Ord` instance. -/
def rustSort {α : Type} [LinearOrder α] (l : List α) : List α :=
  l.mergeSort (fun a b => decide (a ≤ b))

/-- The routine `sort_dedup` of reduce.rs (lines 626-631): `dedup`, then
`sort`, then `dedup`. -/
def sort_dedup {α : Type} [LinearOrder α] (l : List α) : List α :=
  rustDedup (rustSort (rustDedup l))

/-- The canonical order of operations the spec asks re-implementations to
prefer: `sort` then `dedup`. -/
def sortDedupCanonical {α : Type} [LinearOrder α] (l : List α) : List α :=
  rustDedup (rustSort l)

theorem mem_destutter_ne {α : Type} [DecidableEq α] (a : α) (l : List α) (x : α) :
    x ∈ List.destutter' (· ≠ ·) a l ↔ x = a ∨ x ∈ l := by
  induction l generalizing a with
  | nil => simp
  | cons b t ih =>
    by_cases hab : a = b
    · subst hab
      simp only [List.destutter'_cons, ne_eq, not_true_eq_false, if_false, ih, List.mem_cons]
      tauto
    · simp only [List.destutter'_cons, ne_eq, hab, not_false_eq_true, if_true, List.mem_cons, ih]

theorem mem_rustDedup {α : Type} [DecidableEq α] (l : List α) (x : α) :
    x ∈ rustDedup l ↔ x ∈ l := by
  cases l with
  | nil => simp [rustDedup]
  | cons a t =>
    simp only [rustDedup, List.destutter_cons', mem_destutter_ne, List.mem_cons]

theorem mem_rustSort {α : Type} [LinearOrder α] (l : List α) (x : α) :
    x ∈ rustSort l ↔ x ∈ l :=
  (List.mergeSort_perm l _).mem_iff

theorem sorted_rustSort {α : Type} [LinearOrder α] (l : List α) :
    List.Sorted (· ≤ ·) (rustSort l) := by
  have h := @List.sorted_mergeSort α (fun a b : α => decide (a ≤ b))
    (fun a b c hab hbc => by simp only [decide_eq_true_eq] at *; exact le_trans hab hbc)
    (fun a b => by simpa using le_total a b) l
  refine h.imp ?_
  simp

theorem rustDedup_sorted_lt {α : Type} [LinearOrder α] (l : List α)
    (hl : List.Sorted (· ≤ ·) l) : List.Pairwise (· < ·) (rustDedup l) := by
  have hchain : List.Chain' (· ≠ ·) (rustDedup l) := List.destutter_is_chain' _ l
  have hsub : (rustDedup l).Sublist l := List.destutter_sublist _ l
  have hle : List.Pairwise (· ≤ ·) (rustDedup l) := hl.sublist hsub
  have : List.Chain' (· < ·) (rustDedup l) := by
    have hle' : List.Chain' (· ≤ ·) (rustDedup l) := hle.chain'
    revert hchain hle'
    generalize rustDedup l = m
    intro hchain hle'
    induction m with
    | nil => exact List.chain'_nil
    | cons a t ih =>
      cases t with
      | nil => simp
      | cons b u =>
        rw [List.chain'_cons] at hchain hle' ⊢
        exact ⟨lt_of_le_of_ne hle'.1 hchain.1, ih hchain.2 hle'.2⟩
  exact List.chain'_iff_pairwise.mp this

/-- Strictly sorted lists with the same members are equal. -/
theorem eq_of_sorted_lt_of_mem {α : Type} [LinearOrder α] :
    ∀ (l₁ l₂ : List α), List.Pairwise (· < ·) l₁ → List.Pairwise (· < ·) l₂ →
      (∀ x, x ∈ l₁ ↔ x ∈ l₂) → l₁ = l₂
  | [], [], _, _, _ => rfl
  | [], b :: t₂, _, _, hm => absurd ((hm b).mpr (List.mem_cons_self b t₂)) (List.not_mem_nil b)
  | a :: t₁, [], _, _, hm => absurd ((hm a).mp (List.mem_cons_self a t₁)) (List.not_mem_nil a)
  | a :: t₁, b :: t₂, h₁, h₂, hm => by
    rw [List.pairwise_cons] at h₁ h₂
    have hab : a = b := by
      rcases List.mem_cons.mp ((hm a).mp (List.mem_cons_self a t₁)) with h | h
      · exact h
      · rcases List.mem_cons.mp ((hm b).mpr (List.mem_cons_self b t₂)) with h' | h'
        · exact h'.symm
        · exact absurd (lt_trans (h₂.1 a h) (h₁.1 b h')) (lt_irrefl b)
    subst hab
    have hmt : ∀ x, x ∈ t₁ ↔ x ∈ t₂ := by
      intro x
      constructor
      · intro hx
        rcases List.mem_cons.mp ((hm x).mp (List.mem_cons_of_mem _ hx)) with h | h
        · exact absurd (h ▸ h₁.1 x hx) (lt_irrefl x)
        · exact h
      · intro hx
        rcases List.mem_cons.mp ((hm x).mpr (List.mem_cons_of_mem _ hx)) with h | h
        · exact absurd (h ▸ h₂.1 x hx) (lt_irrefl x)
        · exact h
    rw [eq_of_sorted_lt_of_mem t₁ t₂ h₁.2 h₂.2 hmt]

theorem mem_sort_dedup {α : Type} [LinearOrder α] (l : List α) (x : α) :
    x ∈ sort_dedup l ↔ x ∈ l := by
  simp [sort_dedup, mem_rustDedup, mem_rustSort]

theorem mem_sortDedupCanonical {α : Type} [LinearOrder α] (l : List α) (x : α) :
    x ∈ sortDedupCanonical l ↔ x ∈ l := by
  simp [sortDedupCanonical, mem_rustDedup, mem_rustSort]

/-- Claim C7.  For every list over a totally ordered element type, the
`sort_dedup` routine of reduce.rs (dedup, then sort, then dedup) produces
exactly the result of the canonical sort-then-dedup: the leading
adjacent-only dedup causes no semantic drift. -/
theorem sort_dedup_eq_canonical {α : Type} [LinearOrder α] (l : List α) :
    sort_dedup l = sortDedupCanonical l := by
  apply eq_of_sorted_lt_of_mem
  · exact rustDedup_sorted_lt _ (sorted_rustSort _)
  · exact rustDedup_sorted_lt _ (sorted_rustSort _)
  · intro x
    rw [mem_sort_dedup, mem_sortDedupCanonical]

/-! ## Consolidation and the `reduce_abelian` wrapper -/

/-- Net accumulated diff of a value in a list of (value, diff) updates. -/
def keySum {α : Type} [DecidableEq α] (l : List (α × Int)) (k : α) : Int :=
  ((l.filter (fun p => p.1 = k)).map (fun p => p.2)).sum

/-- Modelled from the spec: the consolidation utility
(`crate::consolidation::consolidate`, not among the given sources):
"sort by value, sum diffs per value, drop zero diffs". -/
def consolidate {α : Type} [LinearOrder α] (l : List (α × Int)) : List (α × Int) :=
  (rustDedup (rustSort (l.map Prod.fst))).filterMap
    (fun k => if keySum l k = 0 then none else some (k, keySum l k))

theorem keySum_nil {α : Type} [DecidableEq α] (k : α) : keySum ([] : List (α × Int)) k = 0 := rfl

theorem keySum_cons {α : Type} [DecidableEq α] (a : α) (d : Int) (l : List (α × Int)) (k : α) :
    keySum ((a, d) :: l) k = (if a = k then d else 0) + keySum l k := by
  by_cases h : a = k <;> simp [keySum, List.filter_cons, h]

theorem keySum_append {α : Type} [DecidableEq α] (l₁ l₂ : List (α × Int)) (k : α) :
    keySum (l₁ ++ l₂) k = keySum l₁ k + keySum l₂ k := by
  simp [keySum, List.filter_append]

theorem keySum_negate {α : Type} [DecidableEq α] (l : List (α × Int)) (k : α) :
    keySum (l.map (fun p => (p.1, -p.2))) k = -keySum l k := by
  induction l with
  | nil => simp [keySum]
  | cons p t ih =>
    obtain ⟨a, d⟩ := p
    simp only [List.map_cons, keySum_cons, ih]
    by_cases h : a = k <;> simp [h] <;> ring

theorem keySum_eq_zero_of_not_mem {α : Type} [DecidableEq α] (l : List (α × Int)) (k : α)
    (h : k ∉ l.map Prod.fst) : keySum l k = 0 := by
  induction l with
  | nil => rfl
  | cons p t ih =>
    obtain ⟨a, d⟩ := p
    simp only [List.map_cons, List.mem_cons, not_or] at h
    rw [keySum_cons, if_neg (fun hak => h.1 hak.symm), ih h.2, add_zero]

theorem keySum_filterMap_nodup {α : Type} [DecidableEq α] (S : α → Int) (v : α) :
    ∀ (K : List α), K.Nodup →
      keySum (K.filterMap (fun k => if S k = 0 then none else some (k, S k))) v =
        if v ∈ K then S v else 0 := by
  intro K
  induction K with
  | nil => simp [keySum]
  | cons k K ih =>
    intro hnd
    rw [List.nodup_cons] at hnd
    rw [List.filterMap_cons]
    by_cases hzero : S k = 0
    · rw [if_pos hzero, ih hnd.2]
      by_cases hv : v = k
      · subst hv
        simp [hnd.1, hzero]
      · simp [hv, Ne.symm hv]
    · rw [if_neg hzero, keySum_cons, ih hnd.2]
      by_cases hv : v = k
      · subst hv
        simp [hnd.1]
      · simp [hv, Ne.symm hv]

theorem nodup_consolidate_keys {α : Type} [LinearOrder α] (l : List (α × Int)) :
    (rustDedup (rustSort (l.map Prod.fst))).Nodup :=
  (rustDedup_sorted_lt _ (sorted_rustSort _)).imp ne_of_lt

theorem mem_consolidate_keys {α : Type} [LinearOrder α] (l : List (α × Int)) (v : α) :
    v ∈ rustDedup (rustSort (l.map Prod.fst)) ↔ v ∈ l.map Prod.fst := by
  rw [mem_rustDedup, mem_rustSort]

/-- Consolidation does not change the net accumulated diff of any value. -/
theorem keySum_consolidate {α : Type} [LinearOrder α] (l : List (α × Int)) (v : α) :
    keySum (consolidate l) v = keySum l v := by
  rw [consolidate, keySum_filterMap_nodup (fun k => keySum l k) v _ (nodup_consolidate_keys l)]
  by_cases hv : v ∈ rustDedup (rustSort (l.map Prod.fst))
  · rw [if_pos hv]
  · rw [if_neg hv, keySum_eq_zero_of_not_mem l v (fun hm => hv ((mem_consolidate_keys l v).mpr hm))]

theorem consolidate_no_zeros {α : Type} [LinearOrder α] (l : List (α × Int)) :
    (consolidate l).all (fun p => p.2 != 0) = true := by
  rw [List.all_eq_true]
  intro p hp
  rw [consolidate, List.mem_filterMap] at hp
  obtain ⟨k, _, hk⟩ := hp
  by_cases hz : keySum l k = 0
  · simp [hz] at hk
  · simp only [hz, if_false, Option.some.injEq] at hk
    subst hk
    simpa using hz

/-- The closure that `reduce_abelian` (reduce.rs lines 258-264) installs
around the user `logic` before handing it to `reduce_core`: run `logic`
only when the input slice is non-empty, extend the change vector with the
negation of every pair drained from the previous-output vector, and
consolidate the change vector in place.  `logic` is modelled as the pure
function from key and input slice to the list of pairs it appends. -/
def wrappedLogic {K Vin V : Type} [LinearOrder V]
    (logic : K → List (Vin × Int) → List (V × Int))
    (key : K) (input : List (Vin × Int)) (output : List (V × Int))
    (change : List (V × Int)) : List (V × Int) :=
  consolidate ((change ++ (if input.isEmpty then [] else logic key input)) ++
    output.map (fun p => (p.1, -p.2)))

/-- Claim C1.  For every key, input slice, previous-output vector and empty
change vector, the wrapper installed by `reduce_abelian` produces in the
change vector exactly the consolidation of the user logic's appended
new-output pairs together with the negation of every pair drained from the
previous-output vector; consequently, for every value, the net diff of the
emitted delta equals the net diff of the freshly computed output minus the
net diff of the previously emitted output, and no zero diff survives. -/
theorem reduce_abelian_wrapper_delta {K Vin V : Type} [LinearOrder V]
    (logic : K → List (Vin × Int) → List (V × Int))
    (key : K) (input : List (Vin × Int)) (output : List (V × Int)) :
    wrappedLogic logic key input output [] =
      consolidate ((if input.isEmpty then [] else logic key input) ++
        output.map (fun p => (p.1, -p.2))) ∧
    (∀ v, keySum (wrappedLogic logic key input output []) v =
      keySum (if input.isEmpty then [] else logic key input) v - keySum output v) ∧
    (wrappedLogic logic key input output []).all (fun p => p.2 != 0) = true := by
  refine ⟨by rw [wrappedLogic, List.nil_append], fun v => ?_, consolidate_no_zeros _⟩
  rw [wrappedLogic, List.nil_append, keySum_consolidate, keySum_append, keySum_negate]
  ring

/-- Claim C10.  When the wrapped logic produced by `reduce_abelian` is
invoked with an empty input slice, the user logic is not called at all (the
result does not depend on it), and the produced change vector is exactly
the consolidated negation of the previous-output vector. -/
theorem reduce_abelian_empty_input {K Vin V : Type} [LinearOrder V]
    (logic logicAlt : K → List (Vin × Int) → List (V × Int))
    (key : K) (output : List (V × Int)) :
    wrappedLogic logic key [] output [] =
      consolidate (output.map (fun p => (p.1, -p.2))) ∧
    wrappedLogic logic key [] output [] = wrappedLogic logicAlt key [] output [] := by
  constructor
  · rw [wrappedLogic]
    simp
  · rfl

/-! ## Frontiers and the partition of the interesting list -/

/-- The frontier predicate of timely's `AntichainRef::less_equal`, as the
spec defines it: some element of the frontier is less-or-equal to `t`. -/
def frontierLE {T : Type} [LE T] [DecidableRel (α := T) (· ≤ ·)] (F : List T) (t : T) : Bool :=
  F.any (fun u => decide (u ≤ t))

/-- The claim's own predicate for the exposed pairs of reduce.rs lines
432-443: the time is strictly less than some element of `upper_limit`. -/
def claimExposed {T : Type} [Preorder T] [DecidableRel (α := T) (· < ·)]
    (F : List T) (t : T) : Bool :=
  F.any (fun u => decide (t < u))

/-- The partition of the sorted interesting list performed by reduce.rs
lines 437-443: `retain` keeps pairs whose time is at or beyond
`upper_limit` and pushes every other pair, in order, into the parallel
`exposed_keys` and `exposed_time` containers. -/
def partitionInteresting {K T : Type} [LE T] [DecidableRel (α := T) (· ≤ ·)]
    (upper : List T) : List (K × T) → List (K × T) × List K × List T
  | [] => ([], [], [])
  | (k, t) :: rest =>
    let r := partitionInteresting upper rest
    if frontierLE upper t then ((k, t) :: r.1, r.2.1, r.2.2)
    else (r.1, k :: r.2.1, t :: r.2.2)

instance prodNatLEDecidable : DecidableRel (α := ℕ × ℕ) (· ≤ ·) :=
  fun a b => decidable_of_iff _ Prod.le_def.symm

instance prodNatLTDecidable : DecidableRel (α := ℕ × ℕ) (· < ·) :=
  fun a b => decidable_of_iff _ (lt_iff_le_not_le (a := a) (b := b)).symm

/-- Claim C3, counterexample.  Over the partially ordered product time, with
`upper_limit = [(1,0)]` the pair with time `(0,1)` is moved into the exposed
containers by the code, yet `(0,1)` is not less than any element of
`upper_limit`: the claim's description of the exposed set ("time < some
element of upper_limit") does not match the code's `!less_equal` test on
incomparable times. -/
theorem partition_exposed_counterexample :
    (partitionInteresting [((1, 0) : ℕ × ℕ)] [((0 : ℕ), ((0, 1) : ℕ × ℕ))]).2.2 =
      [((0, 1) : ℕ × ℕ)] ∧
    claimExposed [((1, 0) : ℕ × ℕ)] ((0, 1) : ℕ × ℕ) = false := by
  constructor
  · rfl
  · decide

/-- Claim C3, amended.  At the start of each round the reducer partitions
the (sorted, deduplicated) interesting list without loss or duplication:
exactly the pairs whose time is at or beyond `upper_limit` (some frontier
element less-or-equal to the time) are carried over, and exactly the pairs
whose time is NOT at or beyond `upper_limit` — which under totally ordered
time are those less than some frontier element, but under partial orders
also include times incomparable to the frontier — are moved, in order, into
the parallel `exposed_keys` and `exposed_time` containers. -/
theorem partition_interesting_spec {K T : Type} [LE T] [DecidableRel (α := T) (· ≤ ·)]
    (upper : List T) (ints : List (K × T)) :
    partitionInteresting upper ints =
      (ints.filter (fun p => frontierLE upper p.2),
       (ints.filter (fun p => ¬ frontierLE upper p.2)).map Prod.fst,
       (ints.filter (fun p => ¬ frontierLE upper p.2)).map Prod.snd) := by
  induction ints with
  | nil => rfl
  | cons p rest ih =>
    obtain ⟨k, t⟩ := p
    by_cases h : frontierLE upper t
    · simp [partitionInteresting, h, ih, List.filter_cons]
    · simp [partitionInteresting, h, ih, List.filter_cons]

/-! ## The totally ordered threshold fast path -/

/-- The accumulation of a key's pre-batch diffs performed by
threshold.rs lines 159-165: fold `plus_equals` over `map_times` of the
trace cursor, starting from an absent count. -/
def traceAccum (diffs : List Int) : Option Int :=
  diffs.foldl (fun c d => match c with
    | some c => some (c + d)
    | none => some d) none

/-- The per-key walk of the batch updates performed by
`threshold_semigroup` (threshold.rs lines 169-194): for each (time, diff)
in order, apply `thresh` to the post-update count and the optional
pre-update count, update the count, and emit one update when the result is
present and non-zero. -/
def thresholdLoop {K T : Type} (thresh : K → Int → Option Int → Option Int)
    (key : K) : Option Int → List (T × Int) → List (K × T × Int)
  | _, [] => []
  | count, (t, d) :: rest =>
    let difference := match count with
      | some old => thresh key (old + d) (some old)
      | none => thresh key d none
    let count' := match count with
      | some old => some (old + d)
      | none => some d
    let emitted := match difference with
      | some r => if r = 0 then [] else [(key, t, r)]
      | none => []
    emitted ++ thresholdLoop thresh key count' rest

/-- The per-key behaviour of `threshold_semigroup`: seed the count from the
key's accumulated pre-batch trace diffs, then walk the batch updates. -/
def thresholdSemigroupKey {K T : Type} (thresh : K → Int → Option Int → Option Int)
    (key : K) (traceDiffs : List Int) (batch : List (T × Int)) : List (K × T × Int) :=
  thresholdLoop thresh key (traceAccum traceDiffs) batch

/-- The wrapper that `threshold_total` (threshold.rs lines 42-52) passes to
`threshold_semigroup`: the difference of `thresh` at the new and old
counts, suppressed when zero. -/
def threshTotalWrap {K : Type} (thresh : K → Int → Int) :
    K → Int → Option Int → Option Int :=
  fun key new old =>
    let n := thresh key new
    let n := match old with
      | some o => n + (-(thresh key o))
      | none => n
    if n = 0 then none else some n

/-- The claim's description of the per-key fast path, written from its
words: the running count starts as the accumulated diff of the key in the
pre-batch trace (absent when the key is absent); for each (time, diff) in
order, `new = count + diff`, the emitted result is `thresh(key,new) minus
thresh(key,old)` (the subtrahend taken as zero when the old count is
absent), suppressed when zero; then `count = new`. -/
def thresholdTotalSpec {K T : Type} (thresh : K → Int → Int) (key : K) :
    Option Int → List (T × Int) → List (K × T × Int)
  | _, [] => []
  | count, (t, d) :: rest =>
    let newCount := match count with
      | some old => old + d
      | none => d
    let delta := thresh key newCount - (match count with
      | some old => thresh key old
      | none => 0)
    (if delta = 0 then [] else [(key, t, delta)]) ++
      thresholdTotalSpec thresh key (some newCount) rest

theorem traceAccum_spec (diffs : List Int) :
    traceAccum diffs = if diffs = [] then none else some diffs.sum := by
  have h : ∀ (l : List Int) (a : Int),
      l.foldl (fun c d => match c with
        | some c => some (c + d)
        | none => some d) (some a) = some (a + l.sum) := by
    intro l
    induction l with
    | nil => intro a; simp
    | cons d t ih => intro a; simp [ih, add_assoc]
  cases diffs with
  | nil => rfl
  | cons d t => simp [traceAccum, h]

theorem thresholdLoop_total_eq_spec {K T : Type} (thresh : K → Int → Int) (key : K) :
    ∀ (batch : List (T × Int)) (count : Option Int),
      thresholdLoop (threshTotalWrap thresh) key count batch =
        thresholdTotalSpec thresh key count batch := by
  intro batch
  induction batch with
  | nil => intro count; rfl
  | cons p rest ih =>
    intro count
    obtain ⟨t, d⟩ := p
    cases count with
    | none =>
      simp only [thresholdLoop, thresholdTotalSpec, threshTotalWrap, ih]
      by_cases h : thresh key d = 0
      · simp [h]
      · simp [h]
    | some old =>
      have hc : thresh key (old + d) + -(thresh key old) =
          thresh key (old + d) - thresh key old := by ring
      simp only [thresholdLoop, thresholdTotalSpec, threshTotalWrap, ih, hc]
      by_cases h : thresh key (old + d) - thresh key old = 0
      · simp [h]
      · simp [h]

/-- Claim C2.  In `threshold_semigroup` over totally ordered time, for each
key the running count is seeded with the accumulated diff of the key in the
pre-batch trace (absent when the trace holds nothing for the key — the fold
of `plus_equals` equals the sum of the diffs); each batch update computes
`new = count + diff`, calls `thresh` with the new count and the optional
old count, emits exactly one update when the result is present and
non-zero, and then advances the count.  `threshold_total(thresh)`
instantiates this so that the emitted result equals `thresh(key,new)` minus
`thresh(key,old)` (the subtrahend taken as zero when the old count is
absent), suppressed when that difference is zero. -/
theorem threshold_semigroup_total_spec {K T : Type}
    (thresh : K → Int → Option Int → Option Int) (threshT : K → Int → Int)
    (key : K) (traceDiffs : List Int) (batch : List (T × Int)) :
    thresholdSemigroupKey thresh key traceDiffs batch =
      thresholdLoop thresh key
        (if traceDiffs = [] then none else some traceDiffs.sum) batch ∧
    thresholdSemigroupKey (threshTotalWrap threshT) key traceDiffs batch =
      thresholdTotalSpec threshT key
        (if traceDiffs = [] then none else some traceDiffs.sum) batch := by
  constructor
  · rw [thresholdSemigroupKey, traceAccum_spec]
  · rw [thresholdSemigroupKey, traceAccum_spec, thresholdLoop_total_eq_spec]

/-! ## Entering and leaving nested scopes (collection.rs) -/

/-- The update transformation of `Collection::enter` (collection.rs lines
417-425): each update `(data, time, diff)` becomes
`(data, to_inner(time), diff)`. -/
def enterCollection {D Tout Tin R : Type} (toInner : Tout → Tin)
    (X : List (D × Tout × R)) : List (D × Tin × R) :=
  X.map (fun u => (u.1, toInner u.2.1, u.2.2))

/-- The update transformation of `Collection::leave` (collection.rs lines
600-605): each update `(data, time, diff)` becomes
`(data, to_outer(time), diff)`. -/
def leaveCollection {D Tout Tin R : Type} (toOuter : Tin → Tout)
    (X : List (D × Tin × R)) : List (D × Tout × R) :=
  X.map (fun u => (u.1, toOuter u.2.1, u.2.2))

/-- Claim C8.  For every collection and every nested scope whose timestamp
refinement satisfies `to_outer compose to_inner = id`, composing `enter`
then `leave` preserves every update triple exactly: data and diff are
untouched and each time maps to `to_outer(to_inner(t)) = t`, so
`X.enter(child).leave()` equals `X` as a collection of updates (hence any
operator applied to both yields equal results). -/
theorem enter_leave_identity {D Tout Tin R : Type} (toInner : Tout → Tin)
    (toOuter : Tin → Tout) (hretr : ∀ t, toOuter (toInner t) = t)
    (X : List (D × Tout × R)) :
    leaveCollection toOuter (enterCollection toInner X) = X := by
  induction X with
  | nil => rfl
  | cons u t ih =>
    obtain ⟨d, tm, r⟩ := u
    simp only [enterCollection, leaveCollection, List.map_cons, List.map_map] at ih ⊢
    rw [hretr]
    exact congrArg _ ih

/-- A region's trivial refinement into a product time, for the witness. -/
def toInnerRegion (t : ℕ) : ℕ × ℕ := (t, 0)

/-- The corresponding outer projection. -/
def toOuterRegion (p : ℕ × ℕ) : ℕ := p.1

/-- A concrete collection of updates for the witness. -/
def sampleUpdates : List (ℕ × ℕ × Int) := [(1, 2, 3), (4, 0, -1), (1, 2, 5)]

theorem enter_leave_identity_witness :
    leaveCollection toOuterRegion (enterCollection toInnerRegion sampleUpdates) =
      sampleUpdates :=
  enter_leave_identity toInnerRegion toOuterRegion (fun _ => rfl) sampleUpdates

/-! ## The reducer's held capabilities (reduce.rs lines 401-414) -/

/-- Ingestion of one received capability time (reduce.rs lines 409-413):
drop every held capability whose time is strictly greater than the
received time (timely's `less_than` is `less_equal` and not equal), then
retain a clone of the received capability only when no held capability's
time is less-or-equal to it. -/
def ingestCapability {T : Type} [PartialOrder T] [DecidableRel (α := T) (· ≤ ·)]
    [DecidableEq T] (held : List T) (r : T) : List T :=
  let kept := held.filter (fun c => !(decide (r ≤ c) && decide (r ≠ c)))
  if kept.any (fun c => decide (c ≤ r)) then kept else kept ++ [r]

/-- Folding capability ingestion over a sequence of received capability
times. -/
def ingestAll {T : Type} [PartialOrder T] [DecidableRel (α := T) (· ≤ ·)]
    [DecidableEq T] (held : List T) (rs : List T) : List T :=
  rs.foldl ingestCapability held

/-- Boolean test that a list of times is an antichain: no two elements are
comparable. -/
def pairwiseIncompB {T : Type} [LE T] [DecidableRel (α := T) (· ≤ ·)] : List T → Bool
  | [] => true
  | a :: l => (l.all (fun b => !decide (a ≤ b) && !decide (b ≤ a))) && pairwiseIncompB l

/-- Boolean test that after ingesting `rs` into `held`, some held time is
less-or-equal to every received time. -/
def coverAllB {T : Type} [PartialOrder T] [DecidableRel (α := T) (· ≤ ·)]
    [DecidableEq T] (held : List T) (rs : List T) : Bool :=
  rs.all (fun r => (ingestAll held rs).any (fun c => decide (c ≤ r)))

theorem pairwiseIncompB_iff {T : Type} [LE T] [DecidableRel (α := T) (· ≤ ·)]
    (l : List T) :
    pairwiseIncompB l = true ↔ List.Pairwise (fun a b => ¬ a ≤ b ∧ ¬ b ≤ a) l := by
  induction l with
  | nil => simp [pairwiseIncompB]
  | cons a l ih =>
    simp [pairwiseIncompB, ih, List.all_eq_true, List.pairwise_cons]

theorem ingestCapability_antichain {T : Type} [PartialOrder T]
    [DecidableRel (α := T) (· ≤ ·)] [DecidableEq T] (held : List T) (r : T)
    (h : List.Pairwise (fun a b => ¬ a ≤ b ∧ ¬ b ≤ a) held) :
    List.Pairwise (fun a b => ¬ a ≤ b ∧ ¬ b ≤ a) (ingestCapability held r) := by
  rw [ingestCapability]
  set kept := held.filter (fun c => !(decide (r ≤ c) && decide (r ≠ c))) with hkept
  have hkeptp : List.Pairwise (fun a b => ¬ a ≤ b ∧ ¬ b ≤ a) kept := h.filter _
  by_cases hany : kept.any (fun c => decide (c ≤ r)) = true
  · simpa [hany] using hkeptp
  · rw [if_neg hany]
    rw [List.pairwise_append]
    refine ⟨hkeptp, List.pairwise_singleton _ _, ?_⟩
    intro c hc x hx
    rw [List.mem_singleton] at hx
    rw [hx]
    rw [List.any_eq_true] at hany
    push_neg at hany
    have hcr : ¬ c ≤ r := by
      have := hany c hc
      simpa using this
    refine ⟨hcr, ?_⟩
    intro hrc
    have hmem := hc
    rw [hkept, List.mem_filter] at hmem
    have hnand : r ≤ c → r = c := by
      have := hmem.2
      simp only [Bool.not_eq_eq_eq_not, Bool.not_true, Bool.and_eq_false_iff,
        decide_eq_false_iff_not, ne_eq, Decidable.not_not] at this
      intro hle
      rcases this with h | h
      · exact absurd hle h
      · exact h
    exact hcr (hnand hrc ▸ le_refl r)

theorem ingestCapability_covers_new {T : Type} [PartialOrder T]
    [DecidableRel (α := T) (· ≤ ·)] [DecidableEq T] (held : List T) (r : T) :
    ∃ c ∈ ingestCapability held r, c ≤ r := by
  rw [ingestCapability]
  set kept := held.filter (fun c => !(decide (r ≤ c) && decide (r ≠ c)))
  by_cases hany : kept.any (fun c => decide (c ≤ r)) = true
  · rw [if_pos hany]
    rw [List.any_eq_true] at hany
    obtain ⟨c, hc, hle⟩ := hany
    exact ⟨c, hc, by simpa using hle⟩
  · rw [if_neg hany]
    exact ⟨r, List.mem_append_right _ (List.mem_singleton_self r), le_refl r⟩

theorem ingestCapability_covers_old {T : Type} [PartialOrder T]
    [DecidableRel (α := T) (· ≤ ·)] [DecidableEq T] (held : List T) (r r₀ : T)
    (h : ∃ c ∈ held, c ≤ r₀) : ∃ c ∈ ingestCapability held r, c ≤ r₀ := by
  obtain ⟨c, hc, hcr⟩ := h
  rw [ingestCapability]
  set kept := held.filter (fun x => !(decide (r ≤ x) && decide (r ≠ x))) with hkept
  by_cases hsur : c ∈ kept
  · by_cases hany : kept.any (fun x => decide (x ≤ r)) = true
    · rw [if_pos hany]; exact ⟨c, hsur, hcr⟩
    · rw [if_neg hany]; exact ⟨c, List.mem_append_left _ hsur, hcr⟩
  · have hdrop : r ≤ c ∧ r ≠ c := by
      by_contra hcon
      push_neg at hcon
      apply hsur
      rw [hkept, List.mem_filter]
      refine ⟨hc, ?_⟩
      have halt : ¬ r ≤ c ∨ r = c := by
        by_cases hrc : r ≤ c
        · exact Or.inr (hcon hrc)
        · exact Or.inl hrc
      simpa using halt
    have hrr₀ : r ≤ r₀ := le_trans hdrop.1 hcr
    by_cases hany : kept.any (fun x => decide (x ≤ r)) = true
    · rw [if_pos hany]
      rw [List.any_eq_true] at hany
      obtain ⟨x, hx, hxr⟩ := hany
      exact ⟨x, hx, le_trans (by simpa using hxr) hrr₀⟩
    · rw [if_neg hany]
      exact ⟨r, List.mem_append_right _ (List.mem_singleton_self r), hrr₀⟩

theorem ingestAll_covers_old {T : Type} [PartialOrder T]
    [DecidableRel (α := T) (· ≤ ·)] [DecidableEq T] (rs : List T) :
    ∀ (held : List T) (r₀ : T), (∃ c ∈ held, c ≤ r₀) →
      ∃ c ∈ ingestAll held rs, c ≤ r₀ := by
  induction rs with
  | nil => intro held r₀ h; exact h
  | cons r rest ih =>
    intro held r₀ h
    exact ih (ingestCapability held r) r₀ (ingestCapability_covers_old held r r₀ h)

theorem ingestAll_antichain_covers {T : Type} [PartialOrder T]
    [DecidableRel (α := T) (· ≤ ·)] [DecidableEq T] (rs : List T) :
    ∀ (held : List T), List.Pairwise (fun a b => ¬ a ≤ b ∧ ¬ b ≤ a) held →
      List.Pairwise (fun a b => ¬ a ≤ b ∧ ¬ b ≤ a) (ingestAll held rs) ∧
      ∀ r ∈ rs, ∃ c ∈ ingestAll held rs, c ≤ r := by
  induction rs with
  | nil =>
    intro held h
    exact ⟨h, by simp⟩
  | cons r rest ih =>
    intro held h
    have h' := ingestCapability_antichain held r h
    obtain ⟨ha, hc⟩ := ih (ingestCapability held r) h'
    refine ⟨ha, fun x hx => ?_⟩
    rcases List.mem_cons.mp hx with hx | hx
    · subst hx
      exact ingestAll_covers_old rest (ingestCapability held x) x
        (ingestCapability_covers_new held x)
    · exact hc x hx

/-- Claim C9.  The reducer's held capability times always form an
antichain: starting from any antichain of held times, after ingesting any
sequence of received capability times — each ingest first dropping held
times strictly greater than the received time and then retaining the
received time only when no held time is less-or-equal to it — no two held
times are comparable, and some held time is less-or-equal to every
received time. -/
theorem capability_ingest_antichain {T : Type} [PartialOrder T]
    [DecidableRel (α := T) (· ≤ ·)] [DecidableEq T] (held rs : List T)
    (h : pairwiseIncompB held = true) :
    pairwiseIncompB (ingestAll held rs) = true ∧ coverAllB held rs = true := by
  obtain ⟨ha, hc⟩ := ingestAll_antichain_covers rs held ((pairwiseIncompB_iff held).mp h)
  refine ⟨(pairwiseIncompB_iff _).mpr ha, ?_⟩
  rw [coverAllB, List.all_eq_true]
  intro r hr
  obtain ⟨c, hcm, hcr⟩ := hc r hr
  rw [List.any_eq_true]
  exact ⟨c, hcm, by simpa using hcr⟩

theorem capability_ingest_antichain_witness :
    pairwiseIncompB (ingestAll ([] : List (ℕ × ℕ)) [(1, 0), (0, 1), (1, 1)]) = true ∧
    coverAllB ([] : List (ℕ × ℕ)) [(1, 0), (0, 1), (1, 1)] = true :=
  capability_ingest_antichain [] [(1, 0), (0, 1), (1, 1)] (by decide)

/-! ## Sealing output batches (reduce.rs lines 546-576) -/

/-- Modelled from the spec: insertion into a frontier antichain (timely's
`Antichain::insert`, an external collaborator): the element is added only
when no present element is less-or-equal to it, evicting the elements it
dominates; the spec forms each batch upper bound as the union
`upper_limit ∪ { c.time() : c ∈ capabilities[i+1..] }` kept as a frontier
of minimal elements. -/
def frontierInsert {T : Type} [PartialOrder T] [DecidableRel (α := T) (· ≤ ·)]
    (F : List T) (t : T) : List T :=
  if F.any (fun x => decide (x ≤ t)) then F
  else F.filter (fun x => !decide (t ≤ x)) ++ [t]

/-- The per-builder upper bounds of reduce.rs lines 554-558: for builder
`i`, the frontier holding `upper_limit` together with the capability times
of index `i+1` onward. -/
def outputUppers {T : Type} [PartialOrder T] [DecidableRel (α := T) (· ≤ ·)]
    (upperLimit : List T) (capTimes : List T) : List (List T) :=
  (List.range capTimes.length).map
    (fun i => (capTimes.drop (i + 1)).foldl frontierInsert upperLimit)

/-- The sealing loop of reduce.rs lines 550-572: walk the per-builder upper
bounds, emitting a batch description `(output_lower, output_upper)` and
advancing `output_lower` whenever the interval is non-empty; the second
component is the last computed `output_upper`, on which the code asserts
equality with `upper_limit`. -/
def chainFilter {T : Type} [DecidableEq T] (lower : List T) :
    List (List T) → List (List T × List T) × List T
  | [] => ([], lower)
  | u :: rest =>
    let r := chainFilter u rest
    if u ≠ lower then ((lower, u) :: r.1, r.2) else r

/-- Sealing a round: batches descriptions and final upper bound. -/
def sealBatches {T : Type} [PartialOrder T] [DecidableRel (α := T) (· ≤ ·)]
    [DecidableEq T] (lowerLimit upperLimit capTimes : List T) :
    List (List T × List T) × List T :=
  chainFilter lowerLimit (outputUppers upperLimit capTimes)

/-- Boolean test that consecutive batch descriptions chain:
`B_i.upper = B_{i+1}.lower`. -/
def chainB {T : Type} [DecidableEq T] : List (List T × List T) → Bool
  | [] => true
  | [_] => true
  | b :: b' :: rest => decide (b.2 = b'.1) && chainB (b' :: rest)

/-- Boolean test that the first emitted batch (when one exists) has the
given lower bound. -/
def headLowerB {T : Type} [DecidableEq T] (lower : List T)
    (batches : List (List T × List T)) : Bool :=
  match batches with
  | [] => true
  | b :: _ => decide (b.1 = lower)

/-- Boolean test that no emitted batch has an empty interval. -/
def noEmptyIntervalB {T : Type} [DecidableEq T]
    (batches : List (List T × List T)) : Bool :=
  batches.all (fun b => decide (b.1 ≠ b.2))

theorem chainFilter_invariants {T : Type} [DecidableEq T] :
    ∀ (us : List (List T)) (lower : List T),
      chainB (chainFilter lower us).1 = true ∧
      headLowerB lower (chainFilter lower us).1 = true ∧
      noEmptyIntervalB (chainFilter lower us).1 = true := by
  intro us
  induction us with
  | nil => intro lower; exact ⟨rfl, rfl, rfl⟩
  | cons u rest ih =>
    intro lower
    obtain ⟨hchain, hhead, hne⟩ := ih u
    by_cases hul : u = lower
    · subst hul
      simpa [chainFilter] using ⟨hchain, hhead, hne⟩
    · have hne' : u ≠ lower := hul
      simp only [chainFilter, if_pos hne']
      refine ⟨?_, by simp [headLowerB], ?_⟩
      · cases hcf : (chainFilter u rest).1 with
        | nil => simp [chainB]
        | cons b bs =>
          rw [hcf] at hchain hhead
          have hblower : b.1 = u := by simpa [headLowerB] using hhead
          simp [chainB, hblower, hchain]
      · simp only [noEmptyIntervalB, List.all_cons, Bool.and_eq_true, decide_eq_true_eq]
        exact ⟨Ne.symm hul, by simpa [noEmptyIntervalB] using hne⟩

theorem chainFilter_final {T : Type} [DecidableEq T] :
    ∀ (us : List (List T)) (lower : List T),
      (chainFilter lower us).2 = us.getLast?.getD lower := by
  intro us
  induction us with
  | nil => intro lower; rfl
  | cons u rest ih =>
    intro lower
    have hlast : (u :: rest).getLast?.getD lower = rest.getLast?.getD u := by
      cases rest with
      | nil => rfl
      | cons v vs =>
        rw [List.getLast?_cons_cons]
        cases hg : (v :: vs).getLast? with
        | none => exact absurd hg (by simp)
        | some w => rfl
    rw [hlast, ← ih u]
    by_cases hul : u = lower
    · subst hul; simp [chainFilter]
    · simp [chainFilter, hul]

theorem outputUppers_getLast {T : Type} [PartialOrder T]
    [DecidableRel (α := T) (· ≤ ·)] (upperLimit : List T) (capTimes : List T)
    (h : capTimes ≠ []) :
    (outputUppers upperLimit capTimes).getLast? = some upperLimit := by
  obtain ⟨c, cs, rfl⟩ := List.exists_cons_of_ne_nil h
  rw [outputUppers]
  have hlen : (c :: cs).length = cs.length + 1 := rfl
  rw [hlen, List.range_succ, List.map_append, List.map_singleton, List.getLast?_concat]
  have hdrop : (c :: cs).drop (cs.length + 1) = [] := by
    have : (c :: cs).drop (c :: cs).length = [] := List.drop_length _
    simpa using this
  rw [hdrop]
  rfl

/-- Claim C6.  Output batches sealed within one round chain contiguously:
each non-empty interval yields a batch whose lower bound is the running
`output_lower` (initialized to `lower_limit`) and whose upper bound becomes
the next emitted batch's lower bound; intervals with equal lower and upper
produce no batch; and the final upper bound computed in the round equals
`upper_limit` (the code asserts this), so consecutive emitted batches
satisfy `B_i.upper = B_{i+1}.lower`. -/
theorem seal_batches_contiguous {T : Type} [PartialOrder T]
    [DecidableRel (α := T) (· ≤ ·)] [DecidableEq T]
    (lowerLimit upperLimit capTimes : List T) (h : capTimes ≠ []) :
    chainB (sealBatches lowerLimit upperLimit capTimes).1 = true ∧
    headLowerB lowerLimit (sealBatches lowerLimit upperLimit capTimes).1 = true ∧
    noEmptyIntervalB (sealBatches lowerLimit upperLimit capTimes).1 = true ∧
    (sealBatches lowerLimit upperLimit capTimes).2 = upperLimit := by
  obtain ⟨hchain, hhead, hne⟩ :=
    chainFilter_invariants (outputUppers upperLimit capTimes) lowerLimit
  refine ⟨hchain, hhead, hne, ?_⟩
  rw [sealBatches, chainFilter_final, outputUppers_getLast upperLimit capTimes h]
  rfl

theorem seal_batches_contiguous_witness :
    chainB (sealBatches [(0 : ℕ)] [2] [0, 1]).1 = true ∧
    headLowerB [(0 : ℕ)] (sealBatches [(0 : ℕ)] [2] [0, 1]).1 = true ∧
    noEmptyIntervalB (sealBatches [(0 : ℕ)] [2] [0, 1]).1 = true ∧
    (sealBatches [(0 : ℕ)] [2] [0, 1]).2 = [2] :=
  seal_batches_contiguous [0] [2] [0, 1] (by decide)

/-! ## Generic consolidation and sorting by an explicit total order

The per-key compute sorts by the Rust `Ord` instances of values and times,
which for partially ordered times is a total order separate from the
lattice order; these variants take that order as an explicit boolean
relation. -/

/-- Consolidation with an explicit boolean sorting relation. -/
def consolidateBy {α : Type} [DecidableEq α] (le : α → α → Bool)
    (l : List (α × Int)) : List (α × Int) :=
  (rustDedup ((l.map Prod.fst).mergeSort le)).filterMap
    (fun k => if keySum l k = 0 then none else some (k, keySum l k))

/-- The routine `sort_dedup` with an explicit boolean sorting relation:
dedup, then sort, then dedup. -/
def sortDedupBy {α : Type} [DecidableEq α] (le : α → α → Bool) (l : List α) : List α :=
  rustDedup ((rustDedup l).mergeSort le)

theorem mem_sortDedupBy {α : Type} [DecidableEq α] (le : α → α → Bool) (l : List α) (x : α) :
    x ∈ sortDedupBy le l ↔ x ∈ l := by
  rw [sortDedupBy, mem_rustDedup, (List.mergeSort_perm _ _).mem_iff, mem_rustDedup]

/-- The lexicographic `Ord` of a Rust pair, from the component orders. -/
def lexPairLe {Vv T : Type} [DecidableEq Vv] (vle : Vv → Vv → Bool)
    (tle : T → T → Bool) (a b : Vv × T) : Bool :=
  if a.1 = b.1 then tle a.2 b.2 else vle a.1 b.1

/-- Rust `Iterator::min` over a list of times: the first minimum by the
total order. -/
def listMin {T : Type} (tle : T → T → Bool) (l : List T) : Option T :=
  l.foldl (fun m t => match m with
    | none => some t
    | some m' => if tle t m' && !(tle m' t) then some t else some m') none

/-! ## The value-history replayer (spec section 4.4) -/

/-- Modelled from the spec: the value-history replayer
(`crate::operators::ValueHistory`, not among the given sources).  It holds
the per-key `((value, time), diff)` entries in two zones: the `buffer` of
updates already marked active and the time-sorted `queue` of updates not
yet stepped. -/
structure ValueHistory (Vv T : Type) where
  buffer : List ((Vv × T) × Int)
  queue : List ((Vv × T) × Int)
deriving DecidableEq

/-- Modelled from the spec: `time()` — the next time present in the
unconsumed suffix, or none. -/
def ValueHistory.vtime {Vv T : Type} (vh : ValueHistory Vv T) : Option T :=
  vh.queue.head?.map (fun e => e.1.2)

/-- Modelled from the spec: `step_while_time_is(t)` — marks the updates at
time `t` at the head of the queue as active, reporting whether any update
was stepped. -/
def ValueHistory.stepWhile {Vv T : Type} [DecidableEq T]
    (vh : ValueHistory Vv T) (t : T) : ValueHistory Vv T × Bool :=
  let stepped := vh.queue.takeWhile (fun e => decide (e.1.2 = t))
  ({ buffer := vh.buffer ++ stepped,
     queue := vh.queue.dropWhile (fun e => decide (e.1.2 = t)) },
   !stepped.isEmpty)

/-- Modelled from the spec: `meet()` — the meet of all remaining
(not-yet-stepped) times. -/
def ValueHistory.vmeet {Vv T : Type} [Lattice T] (vh : ValueHistory Vv T) : Option T :=
  match vh.queue.map (fun e => e.1.2) with
  | [] => none
  | t :: ts => some (ts.foldl (· ⊓ ·) t)

/-- Modelled from the spec: `advance_buffer_by(f)` — join every active
buffered time with `f` and re-consolidate the buffer. -/
def ValueHistory.advanceBufferBy {Vv T : Type} [Lattice T] [DecidableEq Vv]
    [DecidableEq T] (vh : ValueHistory Vv T) (pairLe : (Vv × T) → (Vv × T) → Bool)
    (f : T) : ValueHistory Vv T :=
  { vh with buffer :=
      consolidateBy pairLe (vh.buffer.map (fun e => ((e.1.1, e.1.2 ⊔ f), e.2))) }

/-- Modelled from the spec: `replay_key` — materialize the per-key entries,
each raw time transformed by `trans` (the identity, or the join with the
current meet), producing items in time order. -/
def replayKey {Vv T : Type} (tle : T → T → Bool)
    (entries : List ((Vv × T) × Int)) (trans : T → T) : ValueHistory Vv T :=
  { buffer := [],
    queue := (entries.map (fun e => ((e.1.1, trans e.1.2), e.2))).mergeSort
      (fun a b => tle a.1.2 b.1.2) }

/-! ## The per-key compute of the reducer (reduce.rs lines 719-1061) -/

/-- The suffix meets of the interesting times (reduce.rs lines 755-759):
entry `i` is the meet of `times[i..]`. -/
def suffixMeets {T : Type} [Lattice T] : List T → List T
  | [] => []
  | t :: rest =>
    match suffixMeets rest with
    | [] => [t]
    | m :: ms => (t ⊓ m) :: m :: ms

/-- The helper `update_meet` of reduce.rs lines 1065-1074: combine an
optional meet with an optional time. -/
def updateMeetO {T : Type} [Lattice T] (m : Option T) (other : Option T) : Option T :=
  match other with
  | none => m
  | some t =>
    match m with
    | none => some t
    | some x => some (x ⊓ t)

/-- One scan of a replay buffer at `next_time` (reduce.rs lines 885-900 and
904-919): entries at times less-or-equal to `next_time` enter the
assembled collection, all other entries emit the synthetic join of their
time with `next_time` into the temporary list. -/
def buildBuffer {Vv T : Type} [Lattice T] [DecidableRel (α := T) (· ≤ ·)]
    (nt : T) (buf : List ((Vv × T) × Int)) : List (Vv × Int) × List T :=
  (buf.filterMap (fun e => if decide (e.1.2 ≤ nt) then some (e.1.1, e.2) else none),
   buf.filterMap (fun e => if decide (e.1.2 ≤ nt) then none else some (nt ⊔ e.1.2)))

/-- In-place update of one list entry. -/
def updateAt {α : Type} : List α → ℕ → (α → α) → List α
  | [], _, _ => []
  | a :: l, 0, f => f a :: l
  | a :: l, Nat.succ n, f => a :: updateAt l n f

/-- The capability search of reduce.rs lines 963-964: the position, from
the end, of the first capability-indexed output buffer whose time is
less-or-equal to `next_time`, converted back to a forward index — the
greatest such index. -/
def findStashIndex {Vout T : Type} [LE T] [DecidableRel (α := T) (· ≤ ·)]
    (outputs : List (T × List (Vout × T × Int))) (nt : T) : Option ℕ :=
  match outputs.reverse.findIdx? (fun p => decide (p.1 ≤ nt)) with
  | some pos => some (outputs.length - pos - 1)
  | none => none

/-- The stashing of a non-empty consolidated delta (reduce.rs lines
956-968): find the greatest capability index whose time is less-or-equal
to `next_time` — failing (the `expect` panic) when none exists — then
append every `(value, next_time, diff)` to that buffer and every
`((value, next_time), diff)` to `output_produced`. -/
def stashUpdates {Vout T : Type} [LE T] [DecidableRel (α := T) (· ≤ ·)]
    (outputs : List (T × List (Vout × T × Int))) (nt : T)
    (updates : List (Vout × Int)) (produced : List ((Vout × T) × Int)) :
    Option (List (T × List (Vout × T × Int)) × List ((Vout × T) × Int)) :=
  match findStashIndex outputs nt with
  | none => none
  | some idx =>
    some (updateAt outputs idx (fun p => (p.1, p.2 ++ updates.map (fun u => (u.1, nt, u.2)))),
      produced ++ updates.map (fun u => ((u.1, nt), u.2)))

/-- The state threaded through the main loop of
`HistoryReplayer::compute`. -/
structure ComputeState (Vin Vout T : Type) where
  batchR : ValueHistory Vin T
  inputR : ValueHistory Vin T
  outputR : ValueHistory Vout T
  cmeet : Option T
  timesSlice : List T
  meetsSlice : List T
  synthTimes : List T
  timesCurrent : List T
  outputProduced : List ((Vout × T) × Int)
  newInteresting : List T
  outputs : List (T × List (Vout × T × Int))
deriving DecidableEq

/-- The candidate minimum of the five time sources (reduce.rs lines
821-826): the batch replay, the interesting-times slice, the input and
output replays, and the synthetic heap (sorted descending, so its last
entry is its smallest). -/
def nextTime {Vin Vout T : Type} (tle : T → T → Bool)
    (st : ComputeState Vin Vout T) : Option T :=
  listMin tle ([st.batchR.vtime, st.timesSlice.head?, st.inputR.vtime,
    st.outputR.vtime, st.synthTimes.getLast?].filterMap id)

/-- The tail of every loop iteration (reduce.rs lines 1034-1054): recompute
the meet from the three replays, the synthetic times and the meets slice,
join every current time with it, and normalize `times_current`. -/
def finishStep {Vin Vout T : Type} [Lattice T] [DecidableEq T]
    (tle : T → T → Bool) (batchR inputR : ValueHistory Vin T)
    (outputR : ValueHistory Vout T) (timesSlice meetsSlice synthTimes : List T)
    (timesCurrent : List T) (produced : List ((Vout × T) × Int))
    (newInt : List T) (outputs : List (T × List (Vout × T × Int))) :
    ComputeState Vin Vout T :=
  let m₁ := updateMeetO (updateMeetO (updateMeetO none batchR.vmeet) inputR.vmeet)
    outputR.vmeet
  let m₂ := synthTimes.foldl (fun acc t => updateMeetO acc (some t)) m₁
  let m₃ := updateMeetO m₂ meetsSlice.head?
  let tc := match m₃ with
    | some m => timesCurrent.map (fun t => t ⊔ m)
    | none => timesCurrent
  { batchR := batchR, inputR := inputR, outputR := outputR, cmeet := m₃,
    timesSlice := timesSlice, meetsSlice := meetsSlice, synthTimes := synthTimes,
    timesCurrent := sortDedupBy tle tc, outputProduced := produced,
    newInteresting := newInt, outputs := outputs }

/-- The epilogue of an actionable iteration (reduce.rs lines 983-1054):
close the accumulated batch and current times under join with `next_time`,
normalize the temporary list, distribute it into `new_interesting` (when
at or beyond `upper_limit`) or the synthetic heap (re-sorted descending
and deduplicated when it grew), then run the common iteration tail. -/
def actionableEpilogue {Vin Vout T : Type} [Lattice T] [DecidableEq T]
    [DecidableRel (α := T) (· ≤ ·)] (tle : T → T → Bool) (upper : List T) (nt : T)
    (batchR inputR : ValueHistory Vin T) (outputR : ValueHistory Vout T)
    (timesSlice meetsSlice synthRest timesCurrent : List T)
    (produced : List ((Vout × T) × Int)) (outputsN : List (T × List (Vout × T × Int)))
    (oldNewInt : List T) (tempC : List T) : ComputeState Vin Vout T :=
  let tempS := batchR.buffer.filterMap
      (fun e => if decide (e.1.2 ≤ nt) then none else some (e.1.2 ⊔ nt)) ++
    timesCurrent.filterMap (fun t => if decide (t ≤ nt) then none else some (t ⊔ nt))
  let temp := sortDedupBy tle (tempC ++ tempS)
  let newInt := oldNewInt ++ temp.filter (fun t => frontierLE upper t)
  let synthAdd := temp.filter (fun t => !(frontierLE upper t))
  let synth₂ := if synthAdd.isEmpty then synthRest
    else rustDedup ((synthRest ++ synthAdd).mergeSort (fun a b => tle b a))
  finishStep tle batchR inputR outputR timesSlice meetsSlice synth₂ timesCurrent
    produced newInt outputsN

/-- One iteration of the main loop of `HistoryReplayer::compute`
(reduce.rs lines 821-1055) at the selected `next_time`; `none` models the
`expect` panic of the missing-capability case. -/
def stepBody {K Vin Vout T : Type} [Lattice T] [DecidableEq T]
    [DecidableRel (α := T) (· ≤ ·)] [DecidableEq Vin] [DecidableEq Vout]
    (tle : T → T → Bool) (vinLe : Vin → Vin → Bool) (voutLe : Vout → Vout → Bool)
    (logic : K → List (Vin × Int) → List (Vout × Int) → List (Vout × Int))
    (key : K) (upper : List T) (st : ComputeState Vin Vout T) (nt : T) :
    Option (ComputeState Vin Vout T) :=
  let inputR₁ := (st.inputR.stepWhile nt).1
  let outputR₁ := (st.outputR.stepWhile nt).1
  let bstep := st.batchR.stepWhile nt
  let int₀ := bstep.2
  let batchR₁ :=
    if int₀ then
      match st.cmeet with
      | some m => bstep.1.advanceBufferBy (lexPairLe vinLe tle) m
      | none => bstep.1
    else bstep.1
  let synthPop := st.synthTimes.reverse.takeWhile (fun t => decide (t = nt))
  let synthRest := (st.synthTimes.reverse.dropWhile (fun t => decide (t = nt))).reverse
  let tc₁ := st.timesCurrent ++ synthPop
  let int₁ := int₀ || !synthPop.isEmpty
  let tsPop := st.timesSlice.takeWhile (fun t => decide (t = nt))
  let timesSlice₁ := st.timesSlice.dropWhile (fun t => decide (t = nt))
  let meetsSlice₁ := st.meetsSlice.drop tsPop.length
  let tc₂ := tc₁ ++ tsPop
  let int₂ := int₁ || !tsPop.isEmpty
  let int₃ := int₂ || batchR₁.buffer.any (fun e => decide (e.1.2 ≤ nt)) ||
    tc₂.any (fun t => decide (t ≤ nt))
  if frontierLE upper nt then
    let newInt := if int₃ then st.newInteresting ++ [nt] else st.newInteresting
    some (finishStep tle batchR₁ inputR₁ outputR₁ timesSlice₁ meetsSlice₁ synthRest
      tc₂ st.outputProduced newInt st.outputs)
  else
    if int₃ then
      let inputR₂ := match st.cmeet with
        | some m => inputR₁.advanceBufferBy (lexPairLe vinLe tle) m
        | none => inputR₁
      let scanI := buildBuffer nt inputR₂.buffer
      let scanB := buildBuffer nt batchR₁.buffer
      let inputBuf := consolidateBy vinLe (scanI.1 ++ scanB.1)
      let outputR₂ := match st.cmeet with
        | some m => outputR₁.advanceBufferBy (lexPairLe voutLe tle) m
        | none => outputR₁
      let scanO := buildBuffer nt outputR₂.buffer
      let scanP := buildBuffer nt st.outputProduced
      let outputBuf := consolidateBy voutLe (scanO.1 ++ scanP.1)
      let updates := if !inputBuf.isEmpty || !outputBuf.isEmpty
        then logic key inputBuf outputBuf else []
      let updates := consolidateBy voutLe updates
      let tempC := scanI.2 ++ scanB.2 ++ scanO.2 ++ scanP.2
      if updates.isEmpty then
        some (actionableEpilogue tle upper nt batchR₁ inputR₂ outputR₂ timesSlice₁
          meetsSlice₁ synthRest tc₂ st.outputProduced st.outputs st.newInteresting tempC)
      else
        match stashUpdates st.outputs nt updates st.outputProduced with
        | none => none
        | some stashed =>
          let produced := match st.cmeet with
            | some m => consolidateBy (lexPairLe voutLe tle)
                (stashed.2.map (fun e => ((e.1.1, e.1.2 ⊔ m), e.2)))
            | none => consolidateBy (lexPairLe voutLe tle) stashed.2
          some (actionableEpilogue tle upper nt batchR₁ inputR₂ outputR₂ timesSlice₁
            meetsSlice₁ synthRest tc₂ produced stashed.1 st.newInteresting tempC)
    else
      some (actionableEpilogue tle upper nt batchR₁ inputR₁ outputR₁ timesSlice₁
        meetsSlice₁ synthRest tc₂ st.outputProduced st.outputs st.newInteresting [])

/-- The main loop of `HistoryReplayer::compute`, with explicit fuel: run
while some candidate time remains. -/
def computeLoop {K Vin Vout T : Type} [Lattice T] [DecidableEq T]
    [DecidableRel (α := T) (· ≤ ·)] [DecidableEq Vin] [DecidableEq Vout]
    (fuel : ℕ) (tle : T → T → Bool) (vinLe : Vin → Vin → Bool)
    (voutLe : Vout → Vout → Bool)
    (logic : K → List (Vin × Int) → List (Vout × Int) → List (Vout × Int))
    (key : K) (upper : List T) (st : ComputeState Vin Vout T) :
    Option (ComputeState Vin Vout T) :=
  match fuel with
  | 0 => some st
  | Nat.succ f =>
    match nextTime tle st with
    | none => some st
    | some nt =>
      match stepBody tle vinLe voutLe logic key upper st nt with
      | none => none
      | some st' => computeLoop f tle vinLe voutLe logic key upper st'

/-- The whole of `HistoryReplayer::compute` (reduce.rs lines 719-1061):
load the batch replay, form the suffix meets and the initial meet, load the
input and output replays with raw times advanced by the meet, run the main
loop, and normalize `new_interesting` with a final `sort_dedup`. -/
def compute {K Vin Vout T : Type} [Lattice T] [DecidableEq T]
    [DecidableRel (α := T) (· ≤ ·)] [DecidableEq Vin] [DecidableEq Vout]
    (fuel : ℕ) (tle : T → T → Bool) (vinLe : Vin → Vin → Bool)
    (voutLe : Vout → Vout → Bool)
    (logic : K → List (Vin × Int) → List (Vout × Int) → List (Vout × Int))
    (key : K) (sourceEntries : List ((Vin × T) × Int))
    (outputEntries : List ((Vout × T) × Int)) (batchEntries : List ((Vin × T) × Int))
    (times : List T) (upper : List T)
    (outputs : List (T × List (Vout × T × Int))) : Option (ComputeState Vin Vout T) :=
  let batchR := replayKey tle batchEntries (fun t => t)
  let meets := suffixMeets times
  let m₀ := updateMeetO (updateMeetO none meets.head?) batchR.vmeet
  let trans : T → T := fun t => match m₀ with
    | some m => t ⊔ m
    | none => t
  let inputR := replayKey tle sourceEntries trans
  let outputR := replayKey tle outputEntries trans
  let st₀ : ComputeState Vin Vout T :=
    { batchR := batchR, inputR := inputR, outputR := outputR, cmeet := m₀,
      timesSlice := times, meetsSlice := meets, synthTimes := [],
      timesCurrent := [], outputProduced := [], newInteresting := [],
      outputs := outputs }
  (computeLoop fuel tle vinLe voutLe logic key upper st₀).map
    (fun st => { st with newInteresting := sortDedupBy tle st.newInteresting })

theorem finishStep_newInteresting {Vin Vout T : Type} [Lattice T] [DecidableEq T]
    (tle : T → T → Bool) (bR iR : ValueHistory Vin T) (oR : ValueHistory Vout T)
    (ts ms sy tc : List T) (pr : List ((Vout × T) × Int)) (ni : List T)
    (os : List (T × List (Vout × T × Int))) :
    (finishStep tle bR iR oR ts ms sy tc pr ni os).newInteresting = ni := rfl

theorem actionableEpilogue_newInteresting {Vin Vout T : Type} [Lattice T]
    [DecidableEq T] [DecidableRel (α := T) (· ≤ ·)] {tle : T → T → Bool}
    {upper : List T} {nt : T} {bR iR : ValueHistory Vin T}
    {oR : ValueHistory Vout T} {ts ms sy tc : List T}
    {pr : List ((Vout × T) × Int)} {os : List (T × List (Vout × T × Int))}
    {oni tempC : List T} (t : T)
    (ht : t ∈ (actionableEpilogue tle upper nt bR iR oR ts ms sy tc pr os
      oni tempC).newInteresting) :
    t ∈ oni ∨ frontierLE upper t = true := by
  simp only [actionableEpilogue, finishStep_newInteresting] at ht
  rw [List.mem_append] at ht
  rcases ht with h | h
  · exact Or.inl h
  · exact Or.inr (List.mem_filter.mp h).2

theorem mem_ite_push {α : Type} {c : Prop} [Decidable c] {l : List α} {x t : α}
    (ht : t ∈ if c then l ++ [x] else l) : t ∈ l ∨ t = x := by
  split at ht
  · rw [List.mem_append, List.mem_singleton] at ht
    exact ht
  · exact Or.inl ht

theorem stepBody_newInteresting {K Vin Vout T : Type} [Lattice T] [DecidableEq T]
    [DecidableRel (α := T) (· ≤ ·)] [DecidableEq Vin] [DecidableEq Vout]
    (tle : T → T → Bool) (vinLe : Vin → Vin → Bool) (voutLe : Vout → Vout → Bool)
    (logic : K → List (Vin × Int) → List (Vout × Int) → List (Vout × Int))
    (key : K) (upper : List T) (st : ComputeState Vin Vout T) (nt : T)
    (st' : ComputeState Vin Vout T)
    (h : stepBody tle vinLe voutLe logic key upper st nt = some st') (t : T)
    (ht : t ∈ st'.newInteresting) :
    t ∈ st.newInteresting ∨ frontierLE upper t = true := by
  simp only [stepBody] at h
  by_cases hfle : frontierLE upper nt = true
  · rw [if_pos hfle, Option.some.injEq] at h
    subst h
    rw [finishStep_newInteresting] at ht
    rcases mem_ite_push ht with hm | hm
    · exact Or.inl hm
    · subst hm
      exact Or.inr hfle
  · rw [if_neg hfle] at h
    repeat' split at h
    all_goals
      first
        | exact Option.noConfusion h
        | (rw [Option.some.injEq] at h
           subst h
           exact actionableEpilogue_newInteresting t ht)

theorem computeLoop_newInteresting {K Vin Vout T : Type} [Lattice T] [DecidableEq T]
    [DecidableRel (α := T) (· ≤ ·)] [DecidableEq Vin] [DecidableEq Vout]
    (tle : T → T → Bool) (vinLe : Vin → Vin → Bool) (voutLe : Vout → Vout → Bool)
    (logic : K → List (Vin × Int) → List (Vout × Int) → List (Vout × Int))
    (key : K) (upper : List T) :
    ∀ (fuel : ℕ) (st st' : ComputeState Vin Vout T),
      computeLoop fuel tle vinLe voutLe logic key upper st = some st' →
      ∀ t ∈ st'.newInteresting, t ∈ st.newInteresting ∨ frontierLE upper t = true := by
  intro fuel
  induction fuel with
  | zero =>
    intro st st' h t ht
    rw [computeLoop, Option.some.injEq] at h
    subst h
    exact Or.inl ht
  | succ f ih =>
    intro st st' h t ht
    rw [computeLoop] at h
    cases hnt : nextTime tle st with
    | none =>
      rw [hnt, Option.some.injEq] at h
      subst h
      exact Or.inl ht
    | some nt =>
      rw [hnt] at h
      dsimp only [] at h
      cases hsb : stepBody tle vinLe voutLe logic key upper st nt with
      | none =>
        rw [hsb] at h
        exact Option.noConfusion h
      | some st₁ =>
        rw [hsb] at h
        rcases ih st₁ st' h t ht with hmem | hfle
        · exact stepBody_newInteresting tle vinLe voutLe logic key upper st nt st₁
            hsb t hmem
        · exact Or.inr hfle

/-- Claim C4.  Every time that the per-key compute
(`HistoryReplayer::compute`) places in `new_interesting` is at or beyond
`upper_limit` — both push sites (the distribution of synthetic times,
reduce.rs lines 1007-1017, and the delayed interesting time, lines
1023-1031) are guarded by `upper_limit.less_equal` — so the debug
assertion of reduce.rs lines 523-527, checked as these times are moved
into the operator's interesting list, never fails; consequently every
`(key, time)` pair carried in the interesting set across rounds was at or
beyond the `upper_limit` current when it was added. -/
theorem compute_new_interesting_at_or_beyond {K Vin Vout T : Type} [Lattice T]
    [DecidableEq T] [DecidableRel (α := T) (· ≤ ·)] [DecidableEq Vin]
    [DecidableEq Vout] (fuel : ℕ) (tle : T → T → Bool)
    (vinLe : Vin → Vin → Bool) (voutLe : Vout → Vout → Bool)
    (logic : K → List (Vin × Int) → List (Vout × Int) → List (Vout × Int))
    (key : K) (sourceEntries : List ((Vin × T) × Int))
    (outputEntries : List ((Vout × T) × Int)) (batchEntries : List ((Vin × T) × Int))
    (times : List T) (upper : List T) (outputs : List (T × List (Vout × T × Int)))
    (st' : ComputeState Vin Vout T)
    (h : compute fuel tle vinLe voutLe logic key sourceEntries outputEntries
      batchEntries times upper outputs = some st') :
    st'.newInteresting.all (frontierLE upper) = true := by
  simp only [compute] at h
  obtain ⟨st₁, hcl, hst⟩ := Option.map_eq_some'.mp h
  subst hst
  rw [List.all_eq_true]
  intro t htm
  have hproj : ({ st₁ with newInteresting := sortDedupBy tle st₁.newInteresting } :
      ComputeState Vin Vout T).newInteresting = sortDedupBy tle st₁.newInteresting := rfl
  rw [hproj, mem_sortDedupBy] at htm
  rcases computeLoop_newInteresting tle vinLe voutLe logic key upper fuel _ st₁ hcl
      t htm with hmem | hfle
  · simp at hmem
  · exact hfle

/-- The total order of natural-number times, for the witness. -/
def natLe (a b : ℕ) : Bool := decide (a ≤ b)

/-- A user logic producing no updates, for the witness. -/
def trivLogic : ℕ → List (ℕ × Int) → List (ℕ × Int) → List (ℕ × Int) :=
  fun _ _ _ => []

/-- The state reached by the witness run of the per-key compute: one
interesting time `1` not yet actionable under `upper_limit = [1]`, hence
delayed into `new_interesting`. -/
def c4State : ComputeState ℕ ℕ ℕ :=
  { batchR := ⟨[], []⟩, inputR := ⟨[], []⟩, outputR := ⟨[], []⟩, cmeet := none,
    timesSlice := [], meetsSlice := [], synthTimes := [], timesCurrent := [1],
    outputProduced := [], newInteresting := [1], outputs := [(0, [])] }

unseal List.merge List.mergeSort in
theorem compute_new_interesting_witness :
    compute 2 natLe natLe natLe trivLogic 0 [] [] [] [1] [1] [(0, [])] =
      some c4State ∧
    c4State.newInteresting.all (frontierLE [1]) = true :=
  ⟨by decide, compute_new_interesting_at_or_beyond 2 natLe natLe natLe trivLogic 0
    [] [] [] [1] [1] [(0, [])] c4State (by decide)⟩

/-! ## The capability search of the stash (claim C5) -/

/-- Boolean test that the output buffer at a given index has time
less-or-equal to `next_time`. -/
def bufTimeLeAt {Vout T : Type} [LE T] [DecidableRel (α := T) (· ≤ ·)]
    (outputs : List (T × List (Vout × T × Int))) (idx : ℕ) (nt : T) : Bool :=
  ((outputs.drop idx).head?.map (fun p => decide (p.1 ≤ nt))).getD false

theorem findIdxQ_some_spec {α : Type} (p : α → Bool) :
    ∀ (l : List α) (j : ℕ), l.findIdx? p = some j →
      (∃ a, (l.drop j).head? = some a ∧ p a = true) ∧
      (l.take j).all (fun a => !p a) = true := by
  intro l
  induction l with
  | nil => intro j h; rw [List.findIdx?_nil] at h; exact Option.noConfusion h
  | cons x xs ih =>
    intro j h
    rw [List.findIdx?_cons] at h
    by_cases hp : p x = true
    · rw [if_pos hp, Option.some.injEq] at h
      subst h
      exact ⟨⟨x, rfl, hp⟩, by simp⟩
    · rw [if_neg hp, List.findIdx?_succ] at h
      obtain ⟨j', hj', rfl⟩ := Option.map_eq_some'.mp h
      obtain ⟨⟨a, ha, hpa⟩, hall⟩ := ih j' hj'
      refine ⟨⟨a, by simpa using ha, hpa⟩, ?_⟩
      simp only [List.take_succ_cons, List.all_cons, Bool.and_eq_true]
      exact ⟨by simp [hp], hall⟩

/-- Claim C5.  Whenever the consolidated delta is non-empty at an
actionable `next_time`, the reducer stashes it through the capability
search of reduce.rs lines 956-968 (embedded as `stashUpdates`, invoked by
`stepBody`): when some capability-indexed output buffer has time
less-or-equal to `next_time`, the buffer selected is the one with the
greatest such index and every delta is appended to it (and recorded in
`output_produced`); when no buffer's time is less-or-equal to `next_time`
the operator fails fatally (the `expect` panic, modelled by `none`) rather
than emitting at an uncovered time or silently dropping the delta. -/
theorem stash_updates_spec {Vout T : Type} [Preorder T]
    [DecidableRel (α := T) (· ≤ ·)] (outputs : List (T × List (Vout × T × Int)))
    (nt : T) (updates : List (Vout × Int)) (produced : List ((Vout × T) × Int)) :
    match findStashIndex outputs nt with
    | none =>
        outputs.all (fun p => !decide (p.1 ≤ nt)) = true ∧
        stashUpdates outputs nt updates produced = none
    | some idx =>
        idx < outputs.length ∧
        bufTimeLeAt outputs idx nt = true ∧
        (outputs.drop (idx + 1)).all (fun p => !decide (p.1 ≤ nt)) = true ∧
        stashUpdates outputs nt updates produced =
          some (updateAt outputs idx
              (fun p => (p.1, p.2 ++ updates.map (fun u => (u.1, nt, u.2)))),
            produced ++ updates.map (fun u => ((u.1, nt), u.2))) := by
  cases hidx : findStashIndex outputs nt with
  | none =>
    rw [findStashIndex] at hidx
    cases hrev : outputs.reverse.findIdx? (fun p => decide (p.1 ≤ nt)) with
    | some pos => rw [hrev] at hidx; exact Option.noConfusion hidx
    | none =>
      refine ⟨?_, ?_⟩
      · rw [← List.all_reverse, List.all_eq_true]
        intro x hx
        have := List.findIdx?_eq_none_iff.mp hrev x hx
        simp [this]
      · rw [stashUpdates, findStashIndex, hrev]
  | some idx =>
    rw [findStashIndex] at hidx
    cases hrev : outputs.reverse.findIdx? (fun p => decide (p.1 ≤ nt)) with
    | none => rw [hrev] at hidx; exact Option.noConfusion hidx
    | some pos =>
      rw [hrev, Option.some.injEq] at hidx
      obtain ⟨⟨a, ha, hpa⟩, hall⟩ := findIdxQ_some_spec _ _ pos hrev
      have hposlt : pos < outputs.length := by
        by_contra hge
        push_neg at hge
        have : outputs.reverse.drop pos = [] := by
          apply List.drop_eq_nil_of_le
          rw [List.length_reverse]
          exact hge
        rw [this] at ha
        exact Option.noConfusion ha
      have hidxval : idx = outputs.length - pos - 1 := hidx.symm
      have hidxlt : idx < outputs.length := by omega
      refine ⟨hidxlt, ?_, ?_, ?_⟩
      · rw [bufTimeLeAt, List.head?_drop]
        rw [List.head?_drop] at ha
        have hrw : outputs.reverse[pos]? = outputs[outputs.length - 1 - pos]? :=
          List.getElem?_reverse hposlt
        rw [hrw] at ha
        have hix : outputs.length - 1 - pos = idx := by omega
        rw [hix] at ha
        rw [ha]
        simp [hpa]
      · have htake : outputs.reverse.take pos = (outputs.drop (outputs.length - pos)).reverse :=
          List.take_reverse
        have hdix : outputs.length - pos = idx + 1 := by omega
        rw [htake, hdix, List.all_reverse] at hall
        exact hall
      · rw [stashUpdates, findStashIndex, hrev]
        dsimp only []
        rw [hidx]

/-- Concrete capability-indexed output buffers for the witness: times
`0, 2, 9, 4, 6`, of which indices `0, 1, 3` are at or below the target
time `5`, the greatest being `3`. -/
def stashOutputsW : List (ℕ × List (ℕ × ℕ × Int)) :=
  [(0, []), (2, []), (9, []), (4, []), (6, [])]

theorem stash_updates_witness :
    stashUpdates stashOutputsW (5 : ℕ) [((7 : ℕ), (1 : Int))] [] =
      some ([(0, []), (2, []), (9, []), (4, [(7, 5, 1)]), (6, [])], [((7, 5), 1)]) ∧
    bufTimeLeAt stashOutputsW 3 (5 : ℕ) = true := by
  have h := stash_updates_spec stashOutputsW (5 : ℕ) [((7 : ℕ), (1 : Int))] []
  have hf : findStashIndex stashOutputsW (5 : ℕ) = some 3 := by decide
  rw [hf] at h
  exact ⟨h.2.2.2.trans (by rfl), h.2.1⟩

end DDflow
